import Mathlib

/-
  Verification development for the PAI memory-enhancement toolset.

  Shallow embedding of:
  - the weekly synthesis pipeline (WeeklySynthesis.ts): keyword extraction,
    pattern grouping, insight generation, report synthesis, learning loading;
  - the linear memory search tool (MemorySearch.ts): per-line pattern search
    with a shared stateful global regex, date extraction, filtering, scoring;
  - the SQLite memory database (MemoryDatabase.ts): upsert semantics of
    insertMemory and the ordering/limit contract of searchMemories.

  JavaScript numbers on the rating/score paths are small integers, modelled
  as Nat/Int; the one floating-point average is modelled over ℚ (the NaN
  produced by 0/0 is falsy in JS, mirrored by ℚ's 0/0 = 0 convention, noted
  at the definition).  Regex use in the sources is limited to fixed-shape
  patterns; each is embedded as an explicit scanner over character lists.
-/

set_option maxHeartbeats 2000000

namespace PaiMemory

/-! ## Generic list utilities shared by the embedded tools -/

/-- Dedup keeping the first occurrence, in order: the semantics of
`[...new Set(xs)]` in JavaScript. -/
def dedupFirstAux (seen : List String) : List String → List String
  | [] => []
  | x :: xs => if x ∈ seen then dedupFirstAux seen xs else x :: dedupFirstAux (x :: seen) xs

def dedupFirst (xs : List String) : List String := dedupFirstAux [] xs

/-- Substring containment on character lists: `s.includes(pat)` semantics. -/
def listContainsSub : List Char → List Char → Bool
  | cs, q =>
    q.isPrefixOf cs ||
      (match cs with
       | [] => false
       | _ :: rest => listContainsSub rest q)

/-- `s.includes(pat)` for strings. -/
def strContainsSub (s pat : String) : Bool := listContainsSub s.data pat.data

/-- Lower-casing a string, as `content.toLowerCase()` (ASCII-relevant part). -/
def lowerStr (s : String) : String := ⟨s.data.map Char.toLower⟩

/-- Stable insertion step: `x` goes in front of the first element `y` it
strictly precedes (`lt x y`), after everything else.  With
`lt x y := cmp x y < 0` this reproduces the stable `Array.prototype.sort`. -/
def insAfter (lt : α → α → Bool) (x : α) : List α → List α
  | [] => [x]
  | y :: ys => if lt x y then x :: y :: ys else y :: insAfter lt x ys

/-- Stable sort by a strict comparator, as JavaScript's stable sort. -/
def insSort (lt : α → α → Bool) (l : List α) : List α :=
  l.foldl (fun acc x => insAfter lt x acc) []

/-- Strict lexicographic order on character lists by code point: the
ASCII-relevant behaviour of both `localeCompare` and SQLite's binary TEXT
collation. -/
def listLexLt : List Char → List Char → Bool
  | [], [] => false
  | [], _ :: _ => true
  | _ :: _, [] => false
  | a :: as, b :: bs => a.toNat < b.toNat || (a.toNat == b.toNat && listLexLt as bs)

/-- Strict lexicographic order on strings. -/
def strLt (a b : String) : Bool := listLexLt a.data b.data

/-! ## Data model of the synthesis pipeline (WeeklySynthesis.ts) -/

inductive LCategory
  | ALGORITHM
  | SYSTEM
deriving DecidableEq, Repr

/-- The `Learning` interface of WeeklySynthesis.ts. -/
structure Learning where
  file : String
  path : String
  date : String
  title : String
  content : String
  category : LCategory
  rating : Option Nat
deriving DecidableEq, Repr

/-- The `Pattern` interface of WeeklySynthesis.ts. -/
structure Pattern where
  theme : String
  occurrences : Nat
  learnings : List Learning
  insight : String
deriving DecidableEq, Repr

/-- The `SynthesisResult` interface of WeeklySynthesis.ts. -/
structure SynthesisResult where
  weekStart : String
  weekEnd : String
  totalLearnings : Nat
  patterns : List Pattern
  topInsights : List String
  lowRatings : List Learning
deriving DecidableEq, Repr

/-! ## Keyword extraction (`extractKeywords`) -/

/-- Character class of the hashtag regex `#[a-zA-Z0-9_-]+`. -/
def isTagChar (c : Char) : Bool :=
  ('a' ≤ c && c ≤ 'z') || ('A' ≤ c && c ≤ 'Z') || ('0' ≤ c && c ≤ '9') ||
    c == '_' || c == '-'

/-- Scanner for the global regex `/#[a-zA-Z0-9_-]+/g`: left-to-right,
non-overlapping, each `#` followed by a maximal run of tag characters.
Fuel is the remaining scan length; every step consumes at least one
character, so `fuel = cs.length` suffices. -/
def extractHashtagsFuel : Nat → List Char → List String
  | 0, _ => []
  | _ + 1, [] => []
  | fuel + 1, c :: rest =>
    if c == '#' then
      let run := rest.takeWhile isTagChar
      if run.isEmpty then extractHashtagsFuel fuel rest
      else ("#" ++ (⟨run⟩ : String)) :: extractHashtagsFuel fuel (rest.drop run.length)
    else extractHashtagsFuel fuel rest

/-- All matches of `/#[a-zA-Z0-9_-]+/g` in the content. -/
def extractHashtags (cs : List Char) : List String :=
  extractHashtagsFuel cs.length cs

/-- The fixed technical-term vocabulary of `extractKeywords`, in source
order. -/
def techTerms : List String :=
  ["bug", "fix", "error", "issue", "problem",
   "feature", "implement", "add", "create",
   "refactor", "optimize", "improve",
   "test", "debug", "deploy",
   "api", "database", "hook", "skill",
   "session", "memory", "learning", "context"]

/-- `extractKeywords(content)`: hashtags, then vocabulary terms contained
(case-insensitively) in the content, deduplicated keeping first
occurrence. -/
def extractKeywords (content : String) : List String :=
  let tags := extractHashtags content.data
  let lowerContent := lowerStr content
  dedupFirst (tags ++ techTerms.filter (fun t => strContainsSub lowerContent t))

/-! ## Insight generation (`generateInsight`) -/

/-- JavaScript truthiness of the optional `l.rating` field (`undefined` and
`0` are falsy). -/
def ratingTruthy : Option Nat → Bool
  | some r => r != 0
  | none => false

/-- `learnings.filter(l => l.rating)`. -/
def ratedDocs (ls : List Learning) : List Learning :=
  ls.filter fun l => ratingTruthy l.rating

/-- `reduce((sum, l) => sum + (l.rating || 0), 0)` over a list. -/
def sumRatings (ls : List Learning) : Nat :=
  ls.foldl (fun s l => s + l.rating.getD 0) 0

/-- Numerator of the float average `avgRating` (the sum of the ratings of
the rated documents). -/
def avgNum (ls : List Learning) : Nat := sumRatings (ratedDocs ls)

/-- Denominator of the float average `avgRating` (the rated-document
count).  The JS value is `num / den` as a float; it is `NaN` when
`den = 0`, and `NaN` is falsy in the guard below. -/
def avgDen (ls : List Learning) : Nat := (ratedDocs ls).length

/-- `(num / den).toFixed(1)` for the non-negative averages arising here:
round half up to one decimal, `⌊10 * num / den + 1 / 2⌋ = (20 * num + den) / (2 * den)`. -/
def fmt1 (num den : Nat) : String :=
  let n := (20 * num + den) / (2 * den)
  toString (n / 10) ++ "." ++ toString (n % 10)

def lowRatingMsg (num den : Nat) : String :=
  "Repeated low ratings (avg " ++ fmt1 num den ++ "/10) suggest this area needs improvement"

def bugMsg : String :=
  "Pattern of similar bugs - consider preventive measures or improved testing"

def techDebtMsg : String :=
  "Technical debt accumulation - schedule dedicated refactoring time"

def genericMsg (n : Nat) : String :=
  "Recurring theme requiring attention - " ++ toString n ++ " instances this week"

/-- The theme-keyed tail of `generateInsight`'s rule chain (rules 2–4). -/
def themeRuleInsight (theme : String) (n : Nat) : String :=
  if strContainsSub theme "bug" || strContainsSub theme "fix" || strContainsSub theme "error" then
    bugMsg
  else if strContainsSub theme "refactor" || strContainsSub theme "optimize" then
    techDebtMsg
  else genericMsg n

/-- `generateInsight(theme, learnings)`: low-rating rule first, then the
theme rules.  The JS guard `avgRating && avgRating < 5` on the float
`num / den` is: false when `den = 0` (`NaN` is falsy), and otherwise
requires the average nonzero (truthiness) and below 5, i.e.
`num ≠ 0 ∧ num < 5 * den`. -/
def generateInsight (theme : String) (ls : List Learning) : String :=
  let num := avgNum ls
  let den := avgDen ls
  if den ≠ 0 ∧ num ≠ 0 ∧ num < 5 * den then lowRatingMsg num den
  else themeRuleInsight theme ls.length

/-! ## Pattern grouping (`identifyPatterns`) -/

/-- Append `l` to an entry exactly when it carries keyword `k`. -/
def updEntry (k : String) (l : Learning) (e : String × List Learning) :
    String × List Learning :=
  if e.1 == k then (e.1, e.2 ++ [l]) else e

/-- One step of filling the `grouped` Map: append `l` to the bucket of
keyword `k` (JS Map preserves key insertion order; a new key is appended). -/
def addKey (g : List (String × List Learning)) (k : String) (l : Learning) :
    List (String × List Learning) :=
  if g.any (fun e => e.1 == k) then g.map (updEntry k l)
  else g ++ [(k, [l])]

/-- Process one learning: push it into every bucket of its keywords. -/
def addLearning (g : List (String × List Learning)) (l : Learning) :
    List (String × List Learning) :=
  (extractKeywords l.content).foldl (fun g k => addKey g k l) g

/-- The `grouped` Map of `identifyPatterns`, as an insertion-ordered
association list. -/
def groupByKeywords (ls : List Learning) : List (String × List Learning) :=
  ls.foldl addLearning []

/-- `Array.from(new Set(items.map(l => l.path))).map(p => items.find(l => l.path === p)!)`. -/
def dedupByPath (items : List Learning) : List Learning :=
  (dedupFirst (items.map (·.path))).filterMap fun p => items.find? (fun l => l.path == p)

/-- `theme.replace(/^#/, '')`. -/
def stripHash (s : String) : String :=
  match s.data with
  | '#' :: rest => ⟨rest⟩
  | _ => s

/-- The body of the retention loop of `identifyPatterns`: a bucket becomes a
`Pattern` when it has ≥ 3 entries and ≥ 3 distinct-by-path learnings. -/
def retainGroup (e : String × List Learning) : Option Pattern :=
  if 3 ≤ e.2.length then
    let uniq := dedupByPath e.2
    if 3 ≤ uniq.length then
      some { theme := stripHash e.1
             occurrences := uniq.length
             learnings := uniq
             insight := generateInsight e.1 uniq }
    else none
  else none

/-- `identifyPatterns(learnings)`: group, retain, sort descending by
occurrence count (stable). -/
def identifyPatterns (ls : List Learning) : List Pattern :=
  insSort (fun a b => b.occurrences < a.occurrences)
    ((groupByKeywords ls).filterMap retainGroup)

/-! ## Weekly synthesis (`synthesize`) -/

/-- `synthesize(learnings, weekStart, weekEnd)`. -/
def synthesize (ls : List Learning) (weekStart weekEnd : String) : SynthesisResult :=
  let patterns := identifyPatterns ls
  { weekStart := weekStart
    weekEnd := weekEnd
    totalLearnings := ls.length
    patterns := patterns
    topInsights := (patterns.take 5).map (·.insight)
    lowRatings := ls.filter fun l =>
      match l.rating with
      | some r => r != 0 && r ≤ 3
      | none => false }

/-! ## Linear search engine (MemorySearch.ts)

The tool compiles one global case-insensitive regex from the raw query and
reuses the same object for every `test()` call, so its `lastIndex` state
threads through all lines of all files.  The embedding covers literal
(metacharacter-free) queries: a match is a case-insensitive occurrence of
the query string, and `lastIndex` is threaded explicitly. -/

/-- Calendar date used for `extractDate` results and the `--since` cutoff.
JS `Date` values are UTC/local instants; at the day granularity the tool
works with, they compare as calendar triples. -/
structure PDate where
  year : Nat
  month : Nat
  day : Nat
deriving DecidableEq, Repr

/-- Strict `Date <` comparison at calendar granularity. -/
def PDate.lt (a b : PDate) : Bool :=
  a.year < b.year ||
    (a.year == b.year &&
      (a.month < b.month || (a.month == b.month && a.day < b.day)))

def digitVal (c : Char) : Nat := c.toNat - 48

/-- Read exactly `n` digit characters, returning them and the rest. -/
def readDigitChars : Nat → List Char → Option (List Char × List Char)
  | 0, cs => some ([], cs)
  | _ + 1, [] => none
  | n + 1, c :: cs =>
    if c.isDigit then
      (readDigitChars n cs).map fun r => (c :: r.1, r.2)
    else none

/-- `parseInt` on a digit run. -/
def digitsToNat (ds : List Char) : Nat :=
  ds.foldl (fun a c => a * 10 + digitVal c) 0

/-- Literal prefix matcher: strip `lit` from the front or fail. -/
def dropLit (lit : List Char) (cs : List Char) : Option (List Char) :=
  if lit.isPrefixOf cs then some (cs.drop lit.length) else none

/-- Anchored attempt of `WORK\/(\d{8})-\d{6}_` at the head of `cs`
(`new Date(year, month - 1, day)`, stored 1-based). -/
def workAt (cs : List Char) : Option PDate := do
  let cs ← dropLit "WORK/".data cs
  let (d8, cs) ← readDigitChars 8 cs
  let cs ← dropLit ['-'] cs
  let (_, cs) ← readDigitChars 6 cs
  let _ ← dropLit ['_'] cs
  some { year := digitsToNat (d8.take 4)
         month := digitsToNat ((d8.drop 4).take 2)
         day := digitsToNat (d8.drop 6) }

/-- Anchored attempt of `(\d{4}-\d{2}-\d{2})[-_]` at the head of `cs`. -/
def learningAt (cs : List Char) : Option PDate := do
  let (y, cs) ← readDigitChars 4 cs
  let cs ← dropLit ['-'] cs
  let (m, cs) ← readDigitChars 2 cs
  let cs ← dropLit ['-'] cs
  let (d, cs) ← readDigitChars 2 cs
  match cs with
  | c :: _ =>
    if c == '-' || c == '_' then
      some { year := digitsToNat y, month := digitsToNat m, day := digitsToNat d }
    else none
  | [] => none

/-- Anchored attempt of `(\d{4}-\d{2})\/` at the head of `cs`
(`new Date(yyyy-mm + "-01")`). -/
def yearMonthAt (cs : List Char) : Option PDate := do
  let (y, cs) ← readDigitChars 4 cs
  let cs ← dropLit ['-'] cs
  let (m, cs) ← readDigitChars 2 cs
  let _ ← dropLit ['/'] cs
  some { year := digitsToNat y, month := digitsToNat m, day := 1 }

/-- Unanchored regex search: first position (left to right) where the
anchored matcher succeeds. -/
def scanFor (f : List Char → Option PDate) : List Char → Option PDate
  | [] => f []
  | c :: rest =>
    match f (c :: rest) with
    | some d => some d
    | none => scanFor f rest

/-- `extractDate(filePath)`: WORK pattern, then learning date, then
year-month directory, else `null`. -/
def extractDate (p : String) : Option PDate :=
  match scanFor workAt p.data with
  | some d => some d
  | none =>
    match scanFor learningAt p.data with
    | some d => some d
    | none => scanFor yearMonthAt p.data

/-- The `MatchContext` interface of MemorySearch.ts. -/
structure MatchContext where
  lineNumber : Nat
  before : List String
  matchLine : String
  after : List String
deriving DecidableEq, Repr

inductive MemType
  | ALGORITHM
  | SYSTEM
  | WORK
deriving DecidableEq, Repr

/-- One file handed to the search loop: its path, type tag, and the
outcome of `readFileSync` (`none` = the read throws). -/
structure SFile where
  path : String
  type : MemType
  read : Option String
deriving DecidableEq, Repr

/-- Scan the suffix starting at position `i` for the first position where
`q` is a prefix. -/
def findFromAux (q : List Char) : List Char → Nat → Option Nat
  | suffix, i =>
    if q.isPrefixOf suffix then some i
    else
      match suffix with
      | [] => none
      | _ :: rest => findFromAux q rest (i + 1)

/-- First occurrence of `q` at position `≥ i` in `line` (both lower-cased
by the caller): `RegExpExec` from `lastIndex = i`, which fails outright
when `lastIndex` exceeds the string length. -/
def findFrom (line q : List Char) (i : Nat) : Option Nat :=
  if i ≤ line.length then findFromAux q (line.drop i) i else none

/-- `content.split("\n")` (always returns at least one element). -/
def splitLinesAux : List Char → List Char → List String
  | [], acc => [⟨acc.reverse⟩]
  | c :: rest, acc =>
    if c == '\n' then (⟨acc.reverse⟩ : String) :: splitLinesAux rest []
    else splitLinesAux rest (c :: acc)

def splitLines (s : String) : List String := splitLinesAux s.data []

/-- `regex.test(line)` for a global regex with `lastIndex = s`: on success
`lastIndex` becomes the match end, on failure it resets to 0. -/
def testG (line q : String) (s : Nat) : Bool × Nat :=
  match findFrom (lowerStr line).data (lowerStr q).data s with
  | some i => (true, i + q.length)
  | none => (false, 0)

/-- Fueled scan counting left-to-right non-overlapping occurrences of the
nonempty pattern `q`; every step consumes at least one character, so
`fuel = line.length` suffices. -/
def countOccFuel (q : List Char) : Nat → List Char → Nat
  | 0, _ => 0
  | fuel + 1, line =>
    match line with
    | [] => 0
    | c :: rest =>
      if q.isPrefixOf (c :: rest) then 1 + countOccFuel q fuel (rest.drop (q.length - 1))
      else countOccFuel q fuel rest

/-- `line.match(regex).length` for a global regex: count of left-to-right
non-overlapping occurrences (`String.match` resets `lastIndex` to 0 before
and leaves it at 0 after; an empty pattern matches at every position). -/
def countOcc (line q : List Char) : Nat :=
  if q.isEmpty then line.length + 1
  else countOccFuel q line.length line

/-- Case-insensitive count of query matches in one line. -/
def countLineMatches (line q : String) : Nat :=
  countOcc (lowerStr line).data (lowerStr q).data

/-- The loop of `searchFile`: test every line with the threaded stateful
regex, collecting matches with up to 3 lines of context on each side
(`lines.slice(max(0, i-3), i)` and `lines.slice(i+1, min(len, i+4))`).
The remaining lines are walked structurally while `i` tracks the current
index into the full line array `all`. -/
def searchFileGo (all : List String) (q : String) : List String → Nat → Nat → List MatchContext × Nat
  | [], _i, s => ([], s)
  | line :: rest, i, s =>
    let (b, s1) := testG line q s
    if b then
      let (ms, s2) := searchFileGo all q rest (i + 1) s1
      (⟨i + 1, (all.take i).drop (i - 3), line, (all.drop (i + 1)).take 3⟩ :: ms, s2)
    else searchFileGo all q rest (i + 1) s1

/-- `searchFile(filePath, query, regexPattern)`: unreadable files are
caught and yield no matches (regex state untouched); readable content is
split on newlines and scanned. -/
def searchFile (f : SFile) (q : String) (s : Nat) : List MatchContext × Nat :=
  match f.read with
  | some content =>
    let lines := splitLines content
    searchFileGo lines q lines 0 s
  | none => ([], s)

/-- The `SearchResult` interface of MemorySearch.ts (the display-only
`relativePath` field, a strip of the environment-derived memory root, is
not modelled). -/
structure SearchResult where
  filePath : String
  type : MemType
  timestamp : Option PDate
  score : Nat
  matchList : List MatchContext
deriving DecidableEq, Repr

/-- The `--since` skip test of `search`: present cutoff, resolvable date,
and `fileDate < sinceDate`. -/
def dateSkip (since : Option PDate) (path : String) : Bool :=
  match since with
  | none => false
  | some d =>
    match extractDate path with
    | some fd => PDate.lt fd d
    | none => false

/-- The result record pushed by `search` for one file with matches: its
score sums per-line match counts over the recorded match lines. -/
def mkResult (q : String) (f : SFile) (ms : List MatchContext) : SearchResult :=
  { filePath := f.path
    type := f.type
    timestamp := extractDate f.path
    score := (ms.map fun m => countLineMatches m.matchLine q).sum
    matchList := ms }

/-- The file loop of `search`: date filter, stateful `searchFile`, then a
result via `mkResult` (`String.match` in the score computation leaves the
regex's `lastIndex` at 0, so the state re-enters the next file as 0). -/
def searchGo (q : String) (since : Option PDate) : List SFile → Nat → List SearchResult
  | [], _ => []
  | f :: fs, s =>
    if dateSkip since f.path then searchGo q since fs s
    else
      let (ms, s1) := searchFile f q s
      if ms.isEmpty then searchGo q since fs s1
      else mkResult q f ms :: searchGo q since fs 0

/-- `search(query, typeFilter, sinceDate)` over an enumerated file list:
scan with the shared regex starting at `lastIndex = 0`, then sort results
descending by score (stable). -/
def search (q : String) (fs : List SFile) (since : Option PDate) : List SearchResult :=
  insSort (fun a b => b.score < a.score) (searchGo q since fs 0)

/-! ## Index store (MemoryDatabase.ts) -/

/-- The `Memory` interface of MemoryDatabase.ts: the scalar fields passed
to `insertMemory` (the `type` union is kept as its string value). -/
structure Memory where
  id : String
  timestamp : String
  type : String
  topic : String
  content : String
  rating : Option Int
  tags : String
  file_path : String
  importance : Int
  stability : Int
deriving DecidableEq, Repr

/-- One row of the `memories` table: the `Memory` columns plus
`created_at DATETIME DEFAULT CURRENT_TIMESTAMP`.  The table is modelled as
a list of rows in insertion order. -/
structure MemRow where
  mem : Memory
  created_at : String
deriving DecidableEq, Repr

/-- `insertMemory(db, memory)`: `INSERT ... ON CONFLICT(id) DO UPDATE SET`
replacing `timestamp, type, topic, content, rating, tags, file_path,
importance, stability` from `excluded` — every scalar column except
`created_at`.  `now` is the `CURRENT_TIMESTAMP` default used on a fresh
insert. -/
def insertMemory (db : List MemRow) (m : Memory) (now : String) : List MemRow :=
  if db.any (fun r => r.mem.id == m.id) then
    db.map fun r => if r.mem.id == m.id then { mem := m, created_at := r.created_at } else r
  else db ++ [{ mem := m, created_at := now }]

/-- One row of the join `memories m JOIN memories_fts ON m.rowid =
memories_fts.rowid WHERE memories_fts MATCH ?`: a matching row with the
relevance rank assigned by the external fts5 engine (smaller = more
relevant). -/
structure ScoredRow where
  row : MemRow
  rank : Int
deriving DecidableEq, Repr

/-- `ORDER BY rank, m.importance DESC, m.timestamp DESC` as a strict
precedence test.  `timestamp` values are TEXT to SQLite and compare under
the binary collation, i.e. lexicographically. -/
def memBefore (a b : ScoredRow) : Bool :=
  a.rank < b.rank ||
    (a.rank == b.rank &&
      (b.row.mem.importance < a.row.mem.importance ||
        (a.row.mem.importance == b.row.mem.importance &&
          strLt b.row.mem.timestamp a.row.mem.timestamp)))

/-- `searchMemories(db, query, limit)`: the rows matching the query (with
their engine ranks, supplied as input since the fts5 engine is external),
ordered by the `ORDER BY` clause and truncated by `LIMIT ?`. -/
def searchMemories (matchRows : List ScoredRow) (limit : Nat) : List ScoredRow :=
  (insSort memBefore matchRows).take limit

/-! ## Learning loader (`loadLearnings` of WeeklySynthesis.ts) -/

/-- One markdown file as `loadLearnings` sees it: directory-entry name,
filesystem mtime (at the calendar granularity the range check and
`formatDate` use), and the `readFileSync` outcome (`none` = throws). -/
structure MdFile where
  name : String
  mtime : PDate
  read : Option String
deriving DecidableEq, Repr

/-- One month directory inside a category directory. -/
structure MonthDir where
  dirName : String
  files : List MdFile
deriving DecidableEq, Repr

/-- `d.match(/^\d{4}-\d{2}$/)` on a directory name. -/
def monthDirOk (s : String) : Bool :=
  match s.data with
  | [a, b, c, d, dash, e, f] =>
    a.isDigit && b.isDigit && c.isDigit && d.isDigit && dash == '-' && e.isDigit && f.isDigit
  | _ => false

/-- `f.endsWith('.md')`. -/
def endsWithMd (s : String) : Bool := ".md".data.isSuffixOf s.data

/-- `file.replace(/\.md$/, '')`. -/
def stripMdSuffix (s : String) : String :=
  if endsWithMd s then ⟨s.data.take (s.data.length - 3)⟩ else s

/-- Non-strict `Date` comparison for the mtime range check. -/
def PDate.le (a b : PDate) : Bool := !PDate.lt b a

/-- `String(x).padStart(2, '0')`. -/
def pad2 (n : Nat) : String := if n < 10 then "0" ++ toString n else toString n

/-- `formatDate(date)`: `YYYY-MM-DD` with zero-padded month and day. -/
def formatDate (d : PDate) : String :=
  toString d.year ++ "-" ++ pad2 d.month ++ "-" ++ pad2 d.day

/-- Whitespace class of `\s` (the ASCII part relevant to single lines). -/
def isWsChar (c : Char) : Bool :=
  c == ' ' || c == '\t' || c == '\r' || c == '\x0b' || c == '\x0c'

/-- Match `^#\s+(.+)$` against one line and return the capture: a `#`,
at least one whitespace character, then at least one character to the end
of line (the greedy `\s+` backtracks one step when the rest of the line is
all whitespace). -/
def titleCapture (l : String) : Option String :=
  match l.data with
  | '#' :: rest =>
    let w := (rest.takeWhile isWsChar).length
    if w == 0 then none
    else if w < rest.length then some ⟨rest.drop w⟩
    else if 2 ≤ w then some ⟨rest.drop (w - 1)⟩
    else none
  | _ => none

/-- `content.match(/^#\s+(.+)$/m)`: the capture of the first matching
line. -/
def extractTitle (content : String) : Option String :=
  (splitLines content).findSome? titleCapture

/-- Case-insensitive literal prefix test against a lower-case pattern. -/
def ciStarts (pat : List Char) (cs : List Char) : Bool :=
  (cs.take pat.length).map Char.toLower == pat

/-- The alternation `(?:rating|RATE)` with the `i` flag at the current
position: try `rating`, then `rate`, returning the rest after the
keyword. -/
def ratingKeywordEnd (cs : List Char) : Option (List Char) :=
  if ciStarts "rating".data cs then some (cs.drop 6)
  else if ciStarts "rate".data cs then some (cs.drop 4)
  else none

/-- `.*?(\d+)` without the `s` flag: the first digit on the same line
(before any newline), extended to a maximal digit run (`parseInt`). -/
def digitRunAfter : List Char → Option Nat
  | [] => none
  | c :: rest =>
    if c == '\n' then none
    else if c.isDigit then some (digitsToNat ((c :: rest).takeWhile Char.isDigit))
    else digitRunAfter rest

/-- Left-to-right scan of `/(?:rating|RATE).*?(\d+)/i`: at each start
position try the keyword and then the same-line digits; on failure resume
from the next position. -/
def extractRatingGo : List Char → Option Nat
  | [] => none
  | c :: rest =>
    match ratingKeywordEnd (c :: rest) with
    | some after =>
      match digitRunAfter after with
      | some v => some v
      | none => extractRatingGo rest
    | none => extractRatingGo rest

/-- `content.match(/(?:rating|RATE).*?(\d+)/i)` with `parseInt` on the
capture. -/
def extractRating (content : String) : Option Nat :=
  extractRatingGo content.data

/-- `file.match(/^(\d{4}-\d{2}-\d{2})/)`: the leading date text of the
file name, if present. -/
def dateFromName (name : String) : Option String := do
  let (y, cs) ← readDigitChars 4 name.data
  let cs ← dropLit ['-'] cs
  let (m, cs) ← readDigitChars 2 cs
  let cs ← dropLit ['-'] cs
  let (d, _) ← readDigitChars 2 cs
  some ⟨y ++ '-' :: m ++ '-' :: d⟩

def catName : LCategory → String
  | .ALGORITHM => "ALGORITHM"
  | .SYSTEM => "SYSTEM"

/-- The per-file body of `loadLearnings`: mtime range check (inclusive on
both ends), then a guarded read — a file whose read throws is caught,
warned about, and skipped. -/
def processFile (cat : LCategory) (month : String) (startD endD : PDate) (f : MdFile) :
    Option Learning :=
  if PDate.le startD f.mtime && PDate.le f.mtime endD then
    match f.read with
    | some content =>
      some { file := f.name
             path := catName cat ++ "/" ++ month ++ "/" ++ f.name
             date :=
               match dateFromName f.name with
               | some d => d
               | none => formatDate f.mtime
             title := (extractTitle content).getD (stripMdSuffix f.name)
             content := content
             category := cat
             rating := extractRating content }
    | none => none
  else none

/-- One category subtree of `loadLearnings`: keep `YYYY-MM` month
directories, keep `.md` entries, process each file. -/
def loadCategory (cat : LCategory) (dirs : List MonthDir) (startD endD : PDate) :
    List Learning :=
  (dirs.filter fun d => monthDirOk d.dirName).flatMap fun d =>
    (d.files.filter fun f => endsWithMd f.name).filterMap
      (processFile cat d.dirName startD endD)

/-- `loadLearnings(startDate, endDate)` over the two category subtrees
(ALGORITHM first, then SYSTEM, as in the source), sorted ascending by the
resolved date string (`localeCompare`, stable). -/
def loadLearnings (algo sys : List MonthDir) (startD endD : PDate) : List Learning :=
  insSort (fun a b => strLt a.date b.date)
    (loadCategory .ALGORITHM algo startD endD ++ loadCategory .SYSTEM sys startD endD)

/-! ## Derived notions used by the theorem statements -/

/-- Whether a learning document contains keyword `k`. -/
def kwB (k : String) (l : Learning) : Bool := k ∈ extractKeywords l.content

/-- The number of distinct documents (distinct by path identity) in `ls`
that contain keyword `k`. -/
def distinctDocCount (ls : List Learning) (k : String) : Nat :=
  (dedupFirst ((ls.filter (kwB k)).map (·.path))).length

/-- Lookup of a keyword's bucket in the grouped association list
(`grouped.get(keyword)`): first entry with the key. -/
def findGroup : List (String × List Learning) → String → Option (List Learning)
  | [], _ => none
  | e :: es, k => if e.1 == k then some e.2 else findGroup es k

/-- `dropUnreadable dirs` removes, from every month directory, the files
whose read would throw. -/
def dropUnreadable (dirs : List MonthDir) : List MonthDir :=
  dirs.map fun d => { d with files := d.files.filter fun f => f.read.isSome }

/-! ## Generic lemmas: stable insertion sort -/

theorem mem_insAfter (lt : α → α → Bool) (x : α) (l : List α) (y : α) :
    y ∈ insAfter lt x l ↔ y = x ∨ y ∈ l := by
  induction l with
  | nil => simp [insAfter]
  | cons z zs ih =>
    by_cases h : lt x z = true
    · simp [insAfter, h]
    · simp only [insAfter, h]
      simp [ih]
      tauto

theorem mem_insSortAux (lt : α → α → Bool) (l acc : List α) (y : α) :
    y ∈ l.foldl (fun acc x => insAfter lt x acc) acc ↔ y ∈ acc ∨ y ∈ l := by
  induction l generalizing acc with
  | nil => simp
  | cons z zs ih =>
    simp only [List.foldl_cons, ih, mem_insAfter, List.mem_cons]
    tauto

theorem mem_insSort (lt : α → α → Bool) (l : List α) (y : α) :
    y ∈ insSort lt l ↔ y ∈ l := by
  simp [insSort, mem_insSortAux]

theorem pairwise_insAfter (lt : α → α → Bool)
    (hasymm : ∀ a b, lt a b = true → lt b a = false)
    (hcotrans : ∀ a b c, lt c a = true → lt c b = true ∨ lt b a = true)
    (x : α) (l : List α) (hl : l.Pairwise (fun a b => lt b a = false)) :
    (insAfter lt x l).Pairwise (fun a b => lt b a = false) := by
  induction l with
  | nil => simp [insAfter]
  | cons z zs ih =>
    rcases List.pairwise_cons.mp hl with ⟨hz, hzs⟩
    by_cases h : lt x z = true
    · simp only [insAfter, h, if_pos]
      refine List.pairwise_cons.mpr ⟨?_, hl⟩
      intro w hw
      rcases List.mem_cons.mp hw with rfl | hw
      · exact hasymm _ _ h
      · cases hwx : lt w x with
        | false => rfl
        | true =>
          rcases hcotrans x z w hwx with hc | hc
          · simp [hz w hw] at hc
          · simp [hasymm _ _ h] at hc
    · simp only [insAfter, h, if_neg, Bool.not_eq_true]
      refine List.pairwise_cons.mpr ⟨?_, ih hzs⟩
      intro w hw
      rcases (mem_insAfter lt x zs w).mp hw with rfl | hw
      · simpa using h
      · exact hz w hw

theorem pairwise_insSortAux (lt : α → α → Bool)
    (hasymm : ∀ a b, lt a b = true → lt b a = false)
    (hcotrans : ∀ a b c, lt c a = true → lt c b = true ∨ lt b a = true)
    (l acc : List α) (hacc : acc.Pairwise (fun a b => lt b a = false)) :
    (l.foldl (fun acc x => insAfter lt x acc) acc).Pairwise (fun a b => lt b a = false) := by
  induction l generalizing acc with
  | nil => simpa
  | cons z zs ih =>
    exact ih _ (pairwise_insAfter lt hasymm hcotrans z acc hacc)

theorem pairwise_insSort (lt : α → α → Bool)
    (hasymm : ∀ a b, lt a b = true → lt b a = false)
    (hcotrans : ∀ a b c, lt c a = true → lt c b = true ∨ lt b a = true)
    (l : List α) :
    (insSort lt l).Pairwise (fun a b => lt b a = false) :=
  pairwise_insSortAux lt hasymm hcotrans l [] (by simp)

/-! ## Generic lemmas: filters and filterMap -/

theorem filterMap_filter_of_none {p : α → Bool} {g : α → Option β}
    (h : ∀ x, p x = false → g x = none) (l : List α) :
    (l.filter p).filterMap g = l.filterMap g := by
  induction l with
  | nil => rfl
  | cons x xs ih =>
    by_cases hx : p x = true
    · simp [List.filter_cons, hx, List.filterMap_cons, ih]
    · have hx0 : p x = false := by simpa using hx
      simp [List.filter_cons, hx0, List.filterMap_cons, h x hx0, ih]

theorem filterMap_length_of_isSome {g : α → Option β} (l : List α)
    (h : ∀ x ∈ l, (g x).isSome) : (l.filterMap g).length = l.length := by
  induction l with
  | nil => rfl
  | cons x xs ih =>
    rcases Option.isSome_iff_exists.mp (h x (by simp)) with ⟨b, hb⟩
    simp [List.filterMap_cons, hb, ih fun y hy => h y (by simp [hy])]

/-! ## Generic lemmas: first-occurrence dedup -/

theorem mem_dedupFirstAux (l : List String) :
    ∀ (seen : List String) (x : String),
      x ∈ dedupFirstAux seen l ↔ x ∈ l ∧ x ∉ seen := by
  induction l with
  | nil => simp [dedupFirstAux]
  | cons y ys ih =>
    intro seen x
    by_cases hy : y ∈ seen
    · simp only [dedupFirstAux, if_pos hy, ih]
      constructor
      · rintro ⟨h1, h2⟩; exact ⟨by simp [h1], h2⟩
      · rintro ⟨h1, h2⟩
        rcases List.mem_cons.mp h1 with rfl | h1
        · exact absurd hy h2
        · exact ⟨h1, h2⟩
    · simp only [dedupFirstAux, if_neg hy, List.mem_cons, ih]
      constructor
      · rintro (rfl | ⟨h1, h2⟩)
        · exact ⟨by simp, hy⟩
        · exact ⟨by simp [h1], fun hc => h2 (by simp [hc])⟩
      · rintro ⟨h1, h2⟩
        rcases h1 with rfl | h1
        · exact Or.inl rfl
        · by_cases hxy : x = y
          · exact Or.inl hxy
          · exact Or.inr ⟨h1, by simp [hxy, h2]⟩

theorem mem_dedupFirst (l : List String) (x : String) :
    x ∈ dedupFirst l ↔ x ∈ l := by
  simp [dedupFirst, mem_dedupFirstAux]

theorem dedupFirstAux_length_le (l : List String) :
    ∀ seen : List String, (dedupFirstAux seen l).length ≤ l.length := by
  induction l with
  | nil => simp [dedupFirstAux]
  | cons y ys ih =>
    intro seen
    by_cases hy : y ∈ seen
    · simp only [dedupFirstAux, if_pos hy]
      exact le_trans (ih seen) (by simp)
    · simp only [dedupFirstAux, if_neg hy, List.length_cons]
      exact Nat.succ_le_succ (ih _)

theorem dedupFirst_length_le (l : List String) :
    (dedupFirst l).length ≤ l.length :=
  dedupFirstAux_length_le l []

theorem nodup_dedupFirstAux (l : List String) :
    ∀ seen : List String, (dedupFirstAux seen l).Nodup := by
  induction l with
  | nil => simp [dedupFirstAux]
  | cons y ys ih =>
    intro seen
    by_cases hy : y ∈ seen
    · simpa only [dedupFirstAux, if_pos hy] using ih seen
    · simp only [dedupFirstAux, if_neg hy]
      refine List.nodup_cons.mpr ⟨?_, ih _⟩
      intro hc
      exact ((mem_dedupFirstAux ys (y :: seen) y).mp hc).2 (by simp)

theorem nodup_dedupFirst (l : List String) : (dedupFirst l).Nodup :=
  nodup_dedupFirstAux l []

theorem nodup_extractKeywords (content : String) :
    (extractKeywords content).Nodup := nodup_dedupFirst _

/-! ## Index store: upsert lemmas -/

/-- The update branch of the upsert commutes with filtering by the
conflicting identity. -/
theorem filter_map_upsert (m : Memory) (db : List MemRow) :
    (db.map fun r =>
        if r.mem.id == m.id then ({ mem := m, created_at := r.created_at } : MemRow)
        else r).filter (fun r => r.mem.id == m.id) =
      (db.filter (fun r => r.mem.id == m.id)).map fun r =>
        { mem := m, created_at := r.created_at } := by
  induction db with
  | nil => rfl
  | cons r rs ih =>
    by_cases hr : (r.mem.id == m.id) = true
    · simp only [List.map_cons, List.filter_cons, hr, if_pos]
      simp only [beq_self_eq_true, if_pos]
      simpa using ih
    · simp only [List.map_cons, List.filter_cons, hr]
      simp only [Bool.false_eq_true, if_neg, ite_false, hr]
      simpa [hr] using ih

/-- Effect of one upsert on the rows carrying the upserted identity: a
fresh identity appends one row stamped `now`; an existing identity has all
its rows' scalar fields replaced while `created_at` is kept. -/
theorem insertMemory_filter_key (db : List MemRow) (m : Memory) (t : String)
    (i : String) (hkey : m.id = i) :
    (insertMemory db m t).filter (fun r => r.mem.id == i) =
      if (db.filter (fun r => r.mem.id == i)).isEmpty then
        [{ mem := m, created_at := t }]
      else (db.filter (fun r => r.mem.id == i)).map fun r =>
        { mem := m, created_at := r.created_at } := by
  subst hkey
  by_cases h : db.any (fun r => r.mem.id == m.id) = true
  · have hne : db.filter (fun r => r.mem.id == m.id) ≠ [] := by
      rcases List.any_eq_true.mp h with ⟨r, hr, hpr⟩
      exact List.ne_nil_of_mem (List.mem_filter.mpr ⟨hr, hpr⟩)
    rw [insertMemory, if_pos h, if_neg (by simpa [List.isEmpty_iff] using hne)]
    exact filter_map_upsert m db
  · rw [insertMemory, if_neg h]
    have hnil : db.filter (fun r => r.mem.id == m.id) = [] := by
      rw [List.filter_eq_nil_iff]
      intro x hx hpx
      exact h (List.any_eq_true.mpr ⟨x, hx, hpx⟩)
    simp [List.filter_append, hnil, List.isEmpty_iff]

/-- Claim C5: inserting the same source document (same identity) twice into
the Index Store yields exactly one record for that identity, with the
second insert's field values winning — the upsert replaces timestamp,
type, topic, content, rating, tags, file_path, importance and stability of
the existing record rather than creating a duplicate.  (`huniq` is the
primary-key invariant: at most one existing row per identity.) -/
theorem c5_upsert_last_write_wins (db : List MemRow) (m1 m2 : Memory) (t1 t2 : String)
    (hid : m1.id = m2.id)
    (huniq : (db.filter (fun r => r.mem.id == m2.id)).length ≤ 1) :
    ((insertMemory (insertMemory db m1 t1) m2 t2).filter
        (fun r => r.mem.id == m2.id)).length = 1 ∧
      ∀ r ∈ (insertMemory (insertMemory db m1 t1) m2 t2).filter
          (fun r => r.mem.id == m2.id), r.mem = m2 := by
  have h1 := insertMemory_filter_key db m1 t1 m2.id hid
  have h2 := insertMemory_filter_key (insertMemory db m1 t1) m2 t2 m2.id rfl
  by_cases he : (db.filter (fun r => r.mem.id == m2.id)).isEmpty = true
  · have hA : (insertMemory db m1 t1).filter (fun r => r.mem.id == m2.id) =
        [{ mem := m1, created_at := t1 }] := by rw [h1, if_pos he]
    have hB : (insertMemory (insertMemory db m1 t1) m2 t2).filter
        (fun r => r.mem.id == m2.id) = [{ mem := m2, created_at := t1 }] := by
      rw [h2, hA]; simp
    refine ⟨by simp [hB], ?_⟩
    intro r hr
    rw [hB] at hr
    simp at hr
    simp [hr]
  · have hne : db.filter (fun r => r.mem.id == m2.id) ≠ [] := by
      simpa [List.isEmpty_iff] using he
    have hlen1 : (db.filter (fun r => r.mem.id == m2.id)).length = 1 := by
      have := List.length_pos.mpr hne
      omega
    obtain ⟨r0, hr0⟩ := List.length_eq_one.mp hlen1
    have hA : (insertMemory db m1 t1).filter (fun r => r.mem.id == m2.id) =
        [{ mem := m1, created_at := r0.created_at }] := by
      rw [h1, if_neg he, hr0]; simp
    have hB : (insertMemory (insertMemory db m1 t1) m2 t2).filter
        (fun r => r.mem.id == m2.id) = [{ mem := m2, created_at := r0.created_at }] := by
      rw [h2, hA]; simp
    refine ⟨by simp [hB], ?_⟩
    intro r hr
    rw [hB] at hr
    simp at hr
    simp [hr]

def c5m1 : Memory :=
  { id := "algo_2026-01_lesson", timestamp := "2026-01-05 12:00:00",
    type := "learning", topic := "first topic", content := "first content",
    rating := some 4, tags := "#one", file_path := "MEMORY/a.md",
    importance := 3, stability := 4 }

def c5m2 : Memory :=
  { id := "algo_2026-01_lesson", timestamp := "2026-01-09 12:00:00",
    type := "learning", topic := "second topic", content := "second content",
    rating := some 9, tags := "#two", file_path := "MEMORY/b.md",
    importance := 5, stability := 4 }

/-- Witness for C5 at a concrete double insert. -/
theorem c5_upsert_last_write_wins_witness :
    ((insertMemory (insertMemory [] c5m1 "T0") c5m2 "T9").filter
        (fun r => r.mem.id == c5m2.id)).length = 1 ∧
      ∀ r ∈ (insertMemory (insertMemory [] c5m1 "T0") c5m2 "T9").filter
          (fun r => r.mem.id == c5m2.id), r.mem = c5m2 :=
  c5_upsert_last_write_wins [] c5m1 c5m2 "T0" "T9" (by decide) (by decide)

/-- Claim C10: when an existing record is upserted under the same identity,
its `created_at` column keeps the value from the record's first insertion
while every other column is replaced by the new values. -/
theorem c10_upsert_keeps_created_at (db : List MemRow) (m : Memory) (t : String)
    (r0 : MemRow) (hmem : r0 ∈ db) (hkey : r0.mem.id = m.id)
    (huniq : (db.filter (fun r => r.mem.id == m.id)).length ≤ 1) :
    (insertMemory db m t).filter (fun r => r.mem.id == m.id) =
      [{ mem := m, created_at := r0.created_at }] := by
  have hr0f : r0 ∈ db.filter (fun r => r.mem.id == m.id) :=
    List.mem_filter.mpr ⟨hmem, by simp [hkey]⟩
  have hne : db.filter (fun r => r.mem.id == m.id) ≠ [] := List.ne_nil_of_mem hr0f
  have hlen1 : (db.filter (fun r => r.mem.id == m.id)).length = 1 := by
    have := List.length_pos.mpr hne
    omega
  obtain ⟨a, ha⟩ := List.length_eq_one.mp hlen1
  have har0 : a = r0 := by
    rw [ha] at hr0f
    have := List.mem_singleton.mp hr0f
    exact this.symm
  have h1 := insertMemory_filter_key db m t m.id rfl
  rw [h1, if_neg (by simp [List.isEmpty_iff, hne]), ha, har0]
  simp

/-- Witness for C10 at a concrete re-sync of an existing record. -/
theorem c10_upsert_keeps_created_at_witness :
    (insertMemory [{ mem := c5m1, created_at := "C0" }] c5m2 "C9").filter
        (fun r => r.mem.id == c5m2.id) =
      [{ mem := c5m2, created_at := "C0" }] :=
  c10_upsert_keeps_created_at [{ mem := c5m1, created_at := "C0" }] c5m2 "C9"
    { mem := c5m1, created_at := "C0" } (by simp) (by decide) (by decide)

/-! ## Error handling: unreadable files are skipped, never fatal -/

theorem processFile_none_of_unreadable {cat : LCategory} {month : String}
    {s e : PDate} {f : MdFile} (h : f.read = none) :
    processFile cat month s e f = none := by
  by_cases hr : (PDate.le s f.mtime && PDate.le f.mtime e) = true
  · simp [processFile, hr, h]
  · simp [processFile, hr]

theorem processFiles_dropUnreadable (cat : LCategory) (month : String)
    (s e : PDate) (files : List MdFile) :
    ((files.filter fun f => f.read.isSome).filter fun f => endsWithMd f.name).filterMap
        (processFile cat month s e) =
      (files.filter fun f => endsWithMd f.name).filterMap (processFile cat month s e) := by
  induction files with
  | nil => rfl
  | cons f fs ih =>
    cases hread : f.read with
    | none =>
      simp only [List.filter_cons, hread, Option.isSome_none, Bool.false_eq_true, if_neg,
        ite_false]
      rw [ih]
      by_cases hmd : endsWithMd f.name = true
      · simp [hmd, List.filterMap_cons, processFile_none_of_unreadable hread]
      · simp [hmd]
    | some c =>
      simp only [List.filter_cons, hread, Option.isSome_some, if_pos, ite_true]
      by_cases hmd : endsWithMd f.name = true
      · simp only [List.filter_cons, hmd, if_pos, ite_true, List.filterMap_cons]
        rw [ih]
      · simp only [List.filter_cons, hmd, Bool.false_eq_true, if_neg, ite_false]
        exact ih

theorem loadCategory_dropUnreadable (cat : LCategory) (dirs : List MonthDir)
    (s e : PDate) :
    loadCategory cat (dropUnreadable dirs) s e = loadCategory cat dirs s e := by
  induction dirs with
  | nil => rfl
  | cons d ds ih =>
    have hmain : loadCategory cat (dropUnreadable ds) s e = loadCategory cat ds s e := ih
    simp only [loadCategory, dropUnreadable, List.map_cons, List.filter_cons] at hmain ⊢
    by_cases hd : monthDirOk d.dirName = true
    · simp only [hd, ite_true, List.flatMap_cons]
      rw [processFiles_dropUnreadable, hmain]
    · simp only [hd, Bool.false_eq_true, ite_false]
      exact hmain

theorem searchFile_unreadable {f : SFile} (h : f.read = none) (q : String) (s : Nat) :
    searchFile f q s = ([], s) := by
  simp [searchFile, h]

theorem searchGo_filter_readable (q : String) (since : Option PDate) :
    ∀ (fs : List SFile) (s : Nat),
      searchGo q since (fs.filter fun f => f.read.isSome) s = searchGo q since fs s := by
  intro fs
  induction fs with
  | nil => intro s; rfl
  | cons f fs ih =>
    intro s
    cases hread : f.read with
    | none =>
      simp only [List.filter_cons, hread, Option.isSome_none, Bool.false_eq_true, if_neg,
        ite_false]
      rw [ih]
      by_cases hskip : dateSkip since f.path = true
      · simp [searchGo, hskip]
      · simp [searchGo, hskip, searchFile_unreadable hread]
    | some c =>
      simp only [List.filter_cons, hread, Option.isSome_some, if_pos, ite_true]
      simp only [searchGo]
      rcases hsf : searchFile f q s with ⟨ms, s1⟩
      simp only [hsf]
      by_cases hskip : dateSkip since f.path = true
      · simp only [hskip, ite_true]
        exact ih s
      · simp only [hskip, Bool.false_eq_true, if_neg, ite_false]
        by_cases hms : ms.isEmpty = true
        · simp only [hms, ite_true]
          exact ih s1
        · simp only [hms, Bool.false_eq_true, if_neg, ite_false]
          rw [ih 0]

/-- Claim C9: in both batch operations — the learning load for synthesis
and the linear file search — an unreadable source file is skipped
individually and the batch never aborts: removing the unreadable files
from the input tree leaves the output unchanged, so the remaining files
are still processed and returned.  (The warning log line is a console side
effect outside the embedding.) -/
theorem c9_unreadable_files_skipped :
    ∀ (algo sys : List MonthDir) (s e : PDate) (q : String) (fs : List SFile)
      (since : Option PDate),
      loadLearnings (dropUnreadable algo) (dropUnreadable sys) s e =
          loadLearnings algo sys s e ∧
        search q (fs.filter fun f => f.read.isSome) since = search q fs since := by
  intro algo sys s e q fs since
  constructor
  · unfold loadLearnings
    rw [loadCategory_dropUnreadable, loadCategory_dropUnreadable]
  · unfold search
    rw [searchGo_filter_readable]

/-! ## Linear search: the shared regex state re-enters every file at 0 -/

theorem testG_false_state (line q : String) (s : Nat) :
    (testG line q s).1 = false → (testG line q s).2 = 0 := by
  unfold testG
  cases findFrom (lowerStr line).data (lowerStr q).data s <;> simp

theorem searchFileGo_empty_state (all : List String) (q : String) :
    ∀ (rest : List String) (i : Nat),
      (searchFileGo all q rest i 0).1 = [] → (searchFileGo all q rest i 0).2 = 0 := by
  intro rest
  induction rest with
  | nil => intro i _; rfl
  | cons line rs ih =>
    intro i h
    rcases ht : testG line q 0 with ⟨b, s1⟩
    simp only [searchFileGo, ht] at h ⊢
    cases b with
    | true => simp at h
    | false =>
      have hs1 : s1 = 0 := by
        have hst := testG_false_state line q 0
        rw [ht] at hst
        exact hst rfl
      subst hs1
      simp only [Bool.false_eq_true, ite_false] at h ⊢
      exact ih (i + 1) h

theorem searchFile_empty_state (f : SFile) (q : String) :
    (searchFile f q 0).1 = [] → (searchFile f q 0).2 = 0 := by
  cases hr : f.read with
  | none => intro _; simp [searchFile, hr]
  | some c =>
    intro h
    simp only [searchFile, hr] at h ⊢
    exact searchFileGo_empty_state (splitLines c) q (splitLines c) 0 h

/-- Stateless per-file view of the search loop, valid because the regex
state is 0 whenever a new file is entered. -/
def fileResult (q : String) (since : Option PDate) (f : SFile) : Option SearchResult :=
  if dateSkip since f.path then none
  else if ((searchFile f q 0).1).isEmpty then none
  else some (mkResult q f (searchFile f q 0).1)

theorem searchGo_eq_filterMap (q : String) (since : Option PDate) :
    ∀ fs : List SFile, searchGo q since fs 0 = fs.filterMap (fileResult q since) := by
  intro fs
  induction fs with
  | nil => rfl
  | cons f fs ih =>
    rcases hsf : searchFile f q 0 with ⟨ms, s1⟩
    simp only [searchGo, hsf, List.filterMap_cons, fileResult]
    by_cases hskip : dateSkip since f.path = true
    · simp [hskip, ih]
    · simp only [hskip, Bool.false_eq_true, ite_false]
      by_cases hms : ms.isEmpty = true
      · have hms0 : ms = [] := by simpa [List.isEmpty_iff] using hms
        have hs1 : s1 = 0 := by
          have hst := searchFile_empty_state f q
          rw [hsf] at hst
          exact hst (by simp [hms0])
        subst hs1
        simp [hsf, hms, ih]
      · simp [hsf, hms, ih]

theorem fileResult_path {q : String} {since : Option PDate} {f : SFile}
    {r : SearchResult} (h : fileResult q since f = some r) :
    r.filePath = f.path := by
  unfold fileResult at h
  by_cases h1 : dateSkip since f.path = true
  · simp [h1] at h
  · by_cases h2 : ((searchFile f q 0).1).isEmpty = true
    · simp [h1, h2] at h
    · simp only [h1, h2, Bool.false_eq_true, ite_false, Option.some.injEq] at h
      rw [← h]
      rfl

/-- A file contributes a result with its path to the search output exactly
when it survives the date filter and has at least one recorded match. -/
theorem mem_search_path (q : String) (since : Option PDate) (fs : List SFile)
    (f : SFile) (hmem : f ∈ fs) (hnodup : (fs.map SFile.path).Nodup) :
    (∃ r ∈ search q fs since, r.filePath = f.path) ↔
      (dateSkip since f.path = false ∧ ((searchFile f q 0).1).isEmpty = false) := by
  constructor
  · rintro ⟨r, hr, hpath⟩
    unfold search at hr
    have hr1 : r ∈ searchGo q since fs 0 :=
      (mem_insSort (fun a b => b.score < a.score) (searchGo q since fs 0) r).mp hr
    rw [searchGo_eq_filterMap] at hr1
    rcases List.mem_filterMap.mp hr1 with ⟨f1, hf1, hres⟩
    have hp1 : r.filePath = f1.path := fileResult_path hres
    have hf1f : f1 = f :=
      List.inj_on_of_nodup_map hnodup hf1 hmem (by rw [← hp1, hpath])
    subst hf1f
    unfold fileResult at hres
    by_cases h1 : dateSkip since f1.path = true
    · simp [h1] at hres
    · by_cases h2 : ((searchFile f1 q 0).1).isEmpty = true
      · simp [h1, h2] at hres
      · exact ⟨by simpa using h1, by simpa using h2⟩
  · rintro ⟨h1, h2⟩
    refine ⟨mkResult q f (searchFile f q 0).1, ?_, rfl⟩
    rw [search, mem_insSort, searchGo_eq_filterMap]
    exact List.mem_filterMap.mpr ⟨f, hmem, by unfold fileResult; simp [h1, h2]⟩

/-- Claim C7: under a since-date filter, a document whose date cannot be
resolved from its path is never excluded by the filter — it contributes to
the results exactly as it would without the cutoff — while a document
whose resolved date is strictly earlier than the cutoff is excluded. -/
theorem c7_since_filter (q : String) (fs : List SFile) (d : PDate) (f : SFile)
    (hmem : f ∈ fs) (hnodup : (fs.map SFile.path).Nodup) :
    (extractDate f.path = none →
      ((∃ r ∈ search q fs (some d), r.filePath = f.path) ↔
        ∃ r ∈ search q fs none, r.filePath = f.path)) ∧
      ∀ fd, extractDate f.path = some fd → PDate.lt fd d = true →
        ¬∃ r ∈ search q fs (some d), r.filePath = f.path := by
  constructor
  · intro hnone
    rw [mem_search_path q (some d) fs f hmem hnodup,
      mem_search_path q none fs f hmem hnodup]
    have h1 : dateSkip (some d) f.path = false := by simp [dateSkip, hnone]
    have h2 : dateSkip none f.path = false := rfl
    rw [h1, h2]
  · intro fd hfd hlt hex
    rw [mem_search_path q (some d) fs f hmem hnodup] at hex
    have hskip : dateSkip (some d) f.path = true := by simp [dateSkip, hfd, hlt]
    rw [hskip] at hex
    simp at hex

def c7f1 : SFile :=
  { path := "nodate.md", type := .SYSTEM, read := some "something foo here" }

def c7f2 : SFile :=
  { path := "LEARNING/SYSTEM/2020-01/2020-01-05-old.md", type := .SYSTEM,
    read := some "foo" }

def c7fs : List SFile := [c7f1, c7f2]

def c7d : PDate := { year := 2026, month := 1, day := 1 }

/-- Witness for C7: the undated document passes the 2026 cutoff unchanged;
the 2020-dated document is excluded. -/
theorem c7_since_filter_witness :
    ((∃ r ∈ search "foo" c7fs (some c7d), r.filePath = c7f1.path) ↔
      ∃ r ∈ search "foo" c7fs none, r.filePath = c7f1.path) ∧
    ¬∃ r ∈ search "foo" c7fs (some c7d), r.filePath = c7f2.path :=
  ⟨(c7_since_filter "foo" c7fs c7d c7f1 (by decide) (by decide)).1 (by decide),
    (c7_since_filter "foo" c7fs c7d c7f2 (by decide) (by decide)).2
      { year := 2020, month := 1, day := 5 } (by decide) (by decide)⟩

/-! ## The C1 end-to-end synthesis scenario -/

/-- A corpus of 5 learnings dated within one week; exactly 3 contain the
tag `#bug`, none has a rating, and the other two contain neither hashtags
nor vocabulary terms. -/
def c1corpus : List Learning :=
  [ { file := "2026-01-05-a.md", path := "LEARNING/ALGORITHM/2026-01/2026-01-05-a.md",
      date := "2026-01-05", title := "a", content := "#bug in the wild",
      category := .ALGORITHM, rating := none },
    { file := "2026-01-06-b.md", path := "LEARNING/ALGORITHM/2026-01/2026-01-06-b.md",
      date := "2026-01-06", title := "b", content := "#bug once more",
      category := .ALGORITHM, rating := none },
    { file := "2026-01-07-c.md", path := "LEARNING/SYSTEM/2026-01/2026-01-07-c.md",
      date := "2026-01-07", title := "c", content := "#bug third time",
      category := .SYSTEM, rating := none },
    { file := "2026-01-05-d.md", path := "LEARNING/SYSTEM/2026-01/2026-01-05-d.md",
      date := "2026-01-05", title := "d", content := "calm sunday walk",
      category := .SYSTEM, rating := none },
    { file := "2026-01-06-e.md", path := "LEARNING/ALGORITHM/2026-01/2026-01-06-e.md",
      date := "2026-01-06", title := "e", content := "quiet evening stroll",
      category := .ALGORITHM, rating := none } ]

/-- Claim C1 is false on the code: a document containing the tag `#bug`
yields two keywords — the hashtag `#bug` and the vocabulary term `bug` —
so this corpus produces two pattern groups, not exactly one. -/
theorem c1_counterexample :
    ¬(synthesize c1corpus "2026-01-01" "2026-01-08").patterns.length = 1 := by
  decide

/-- Claim C1 (amended): over this corpus — 5 documents, exactly 3
containing `#bug`, none rated — the synthesis output contains exactly two
pattern groups, one from the hashtag keyword `#bug` and one from the
vocabulary term `bug`, each with theme "bug", occurrences 3 and the
bug-pattern insight, and the low-ratings list is empty. -/
theorem c1_two_bug_groups :
    c1corpus.length = 5 ∧
      (c1corpus.filter fun l => (extractKeywords l.content).contains "#bug").length = 3 ∧
      (∀ l ∈ c1corpus, l.rating = none) ∧
      (synthesize c1corpus "2026-01-01" "2026-01-08").patterns.map
          (fun p => (p.theme, p.occurrences, p.insight)) =
        [("bug", 3, bugMsg), ("bug", 3, bugMsg)] ∧
      (synthesize c1corpus "2026-01-01" "2026-01-08").lowRatings = [] := by
  decide

/-! ## The C2 score-aggregation scenario -/

def c2file : SFile :=
  { path := "note.md", type := .SYSTEM, read := some "foo foo\nfoo" }

/-- Claim C2 at the failing input: for a document with one line containing
the query term twice and another line containing it once, the code scores
2, not 3 — the shared global regex's `lastIndex` (3 after the first line's
`test()`) makes the second line's `test()` fail, so that matching line is
never recorded — while the total match count across all its lines is 3 as
the claim requires. -/
theorem c2_score_at_failing_input :
    (search "foo" [c2file] none).map (fun r => r.score) = [2] ∧
      ((splitLines "foo foo\nfoo").map fun l => countLineMatches l "foo").sum = 3 := by
  decide

/-! ## Insight-rule precedence (C4) and the unrated fall-through (C8) -/

theorem foldl_add_shift (f : Learning → Nat) :
    ∀ (ls : List Learning) (a : Nat),
      ls.foldl (fun s l => s + f l) a = a + ls.foldl (fun s l => s + f l) 0 := by
  intro ls
  induction ls with
  | nil => simp
  | cons l ls ih =>
    intro a
    simp only [List.foldl_cons, Nat.zero_add]
    rw [ih (a + f l), ih (f l)]
    omega

/-- Every document that survives the truthiness filter carries a rating of
at least 1, so the rating sum dominates the rated count. -/
theorem length_le_sumRatings (ls : List Learning) :
    (ratedDocs ls).length ≤ sumRatings (ratedDocs ls) := by
  have hone : ∀ l ∈ ratedDocs ls, 1 ≤ l.rating.getD 0 := by
    intro l hl
    rcases List.mem_filter.mp hl with ⟨-, ht⟩
    cases hr : l.rating with
    | none => rw [hr] at ht; simp [ratingTruthy] at ht
    | some r =>
      rw [hr] at ht
      have hr0 : r ≠ 0 := by simpa [ratingTruthy] using ht
      simp [hr]
      omega
  revert hone
  generalize ratedDocs ls = rs
  intro hone
  induction rs with
  | nil => simp [sumRatings]
  | cons l rs ih =>
    rw [sumRatings]
    simp only [List.foldl_cons, Nat.zero_add]
    rw [foldl_add_shift]
    have h1 := hone l (by simp)
    have h2 := ih fun x hx => hone x (by simp [hx])
    rw [sumRatings] at h2
    simp only [List.length_cons]
    omega

/-- Claim C4: insight selection is a fixed first-match-wins rule chain;
for every group whose average rating is defined (at least one rated
member) and below 5, the insight is the low-rating message regardless of
the theme token. -/
theorem c4_low_rating_precedence (theme : String) (ls : List Learning)
    (hdef : ratedDocs ls ≠ [])
    (hlt : avgNum ls < 5 * avgDen ls) :
    generateInsight theme ls = lowRatingMsg (avgNum ls) (avgDen ls) := by
  have hden : avgDen ls ≠ 0 := by
    simpa [avgDen, List.length_eq_zero] using hdef
  have hnum : avgNum ls ≠ 0 := by
    have hle := length_le_sumRatings ls
    unfold avgNum avgDen at *
    omega
  simp only [generateInsight]
  rw [if_pos ⟨hden, hnum, hlt⟩]

def c4ls : List Learning :=
  [ { file := "r1.md", path := "LEARNING/SYSTEM/2026-01/r1.md", date := "2026-01-05",
      title := "r1", content := "rated three", category := .SYSTEM, rating := some 3 },
    { file := "r2.md", path := "LEARNING/SYSTEM/2026-01/r2.md", date := "2026-01-06",
      title := "r2", content := "also three", category := .SYSTEM, rating := some 3 } ]

/-- Witness for C4: average 3.0 with theme "bug-cluster" yields the
low-rating text, never the bug-pattern text. -/
theorem c4_low_rating_precedence_witness :
    ratedDocs c4ls ≠ [] ∧ avgNum c4ls < 5 * avgDen c4ls ∧
      generateInsight "bug-cluster" c4ls =
        "Repeated low ratings (avg 3.0/10) suggest this area needs improvement" ∧
      generateInsight "bug-cluster" c4ls ≠ bugMsg :=
  ⟨by decide, by decide,
    by rw [c4_low_rating_precedence "bug-cluster" c4ls (by decide) (by decide)]; decide,
    by rw [c4_low_rating_precedence "bug-cluster" c4ls (by decide) (by decide)]; decide⟩

/-- Claim C8: when no member document has a rating, the average is
undefined (`NaN`, falsy), the low-rating rule is skipped, and insight
selection falls through to the theme-based and generic rules. -/
theorem c8_unrated_falls_through (theme : String) (ls : List Learning)
    (h : ∀ l ∈ ls, l.rating = none) :
    generateInsight theme ls = themeRuleInsight theme ls.length := by
  have hnil : ratedDocs ls = [] := by
    rw [ratedDocs, List.filter_eq_nil_iff]
    intro l hl
    simp [ratingTruthy, h l hl]
  have hden : avgDen ls = 0 := by simp [avgDen, hnil]
  simp [generateInsight, hden]

def c8ls : List Learning :=
  [ { file := "s1.md", path := "LEARNING/SYSTEM/2026-01/s1.md", date := "2026-01-05",
      title := "s1", content := "notes one", category := .SYSTEM, rating := none },
    { file := "s2.md", path := "LEARNING/SYSTEM/2026-01/s2.md", date := "2026-01-06",
      title := "s2", content := "notes two", category := .SYSTEM, rating := none },
    { file := "s3.md", path := "LEARNING/SYSTEM/2026-01/s3.md", date := "2026-01-07",
      title := "s3", content := "notes three", category := .SYSTEM, rating := none } ]

/-- Witness for C8: three unrated documents under a non-technical theme
fall through to the generic rule. -/
theorem c8_unrated_falls_through_witness :
    (∀ l ∈ c8ls, l.rating = none) ∧
      generateInsight "weekly-notes" c8ls = themeRuleInsight "weekly-notes" c8ls.length ∧
      generateInsight "weekly-notes" c8ls = genericMsg 3 :=
  ⟨by decide, c8_unrated_falls_through "weekly-notes" c8ls (by decide),
    by rw [c8_unrated_falls_through "weekly-notes" c8ls (by decide)]; decide⟩

/-! ## Pattern grouping: the keyword retention threshold (C3) -/

theorem findGroup_map_upd (k : String) (l : Learning) :
    ∀ g : List (String × List Learning),
      findGroup (g.map (updEntry k l)) k = (findGroup g k).map (· ++ [l]) := by
  intro g
  induction g with
  | nil => rfl
  | cons e es ih =>
    by_cases he : (e.1 == k) = true
    · simp [findGroup, updEntry, he]
    · simp only [List.map_cons]
      rw [show updEntry k l e = e by simp [updEntry, he]]
      simp [findGroup, he]
      exact ih

theorem findGroup_none_of_not_any (k : String) :
    ∀ g : List (String × List Learning),
      g.any (fun e => e.1 == k) = false → findGroup g k = none := by
  intro g
  induction g with
  | nil => intro _; rfl
  | cons e es ih =>
    intro h
    simp only [List.any_cons, Bool.or_eq_false_iff] at h
    simp [findGroup, h.1, ih h.2]

theorem findGroup_isSome_of_any (k : String) :
    ∀ g : List (String × List Learning),
      g.any (fun e => e.1 == k) = true → (findGroup g k).isSome := by
  intro g
  induction g with
  | nil => intro h; simp at h
  | cons e es ih =>
    intro h
    by_cases he : (e.1 == k) = true
    · simp [findGroup, he]
    · simp only [List.any_cons, he, Bool.false_or] at h
      simp [findGroup, he, ih h]

theorem findGroup_append (k : String) :
    ∀ g1 g2 : List (String × List Learning),
      findGroup (g1 ++ g2) k =
        (match findGroup g1 k with
          | some its => some its
          | none => findGroup g2 k) := by
  intro g1 g2
  induction g1 with
  | nil => simp [findGroup]
  | cons e es ih =>
    by_cases he : (e.1 == k) = true
    · simp [findGroup, he]
    · simp [findGroup, he, ih]

/-- Pushing a learning into keyword `k`'s bucket appends it there (a fresh
bucket is created at the end of the map). -/
theorem findGroup_addKey_self (g : List (String × List Learning)) (k : String)
    (l : Learning) :
    findGroup (addKey g k l) k = some ((findGroup g k).getD [] ++ [l]) := by
  by_cases h : g.any (fun e => e.1 == k) = true
  · rw [addKey, if_pos h, findGroup_map_upd]
    rcases Option.isSome_iff_exists.mp (findGroup_isSome_of_any k g h) with ⟨its, hits⟩
    rw [hits]
    rfl
  · rw [addKey, if_neg h, findGroup_append,
      findGroup_none_of_not_any k g (Bool.eq_false_iff.mpr h)]
    simp [findGroup]

/-- Pushing a learning into a different keyword's bucket leaves `k`'s
bucket unchanged. -/
theorem findGroup_addKey_other (g : List (String × List Learning)) (k k0 : String)
    (l : Learning) (hne : (k0 == k) = false) :
    findGroup (addKey g k0 l) k = findGroup g k := by
  by_cases h : g.any (fun e => e.1 == k0) = true
  · rw [addKey, if_pos h]
    clear h
    induction g with
    | nil => rfl
    | cons e es ih =>
      simp only [List.map_cons]
      by_cases he : (e.1 == k0) = true
      · have he1 : e.1 = k0 := by simpa using he
        have hek : (e.1 == k) = false := by
          rw [he1]
          exact hne
        rw [show updEntry k0 l e = (e.1, e.2 ++ [l]) by simp [updEntry, he]]
        simp [findGroup, hek]
        exact ih
      · rw [show updEntry k0 l e = e by simp [updEntry, he]]
        by_cases hek : (e.1 == k) = true
        · simp [findGroup, hek]
        · simp [findGroup, hek]
          exact ih
  · rw [addKey, if_neg h, findGroup_append]
    cases hfg : findGroup g k with
    | some its => rfl
    | none => simp [findGroup, hne]

/-- Processing a learning's deduplicated keyword list appends it to
exactly the buckets of its keywords. -/
theorem findGroup_foldl_addKey (l : Learning) (k : String) :
    ∀ kws : List String, kws.Nodup → ∀ g,
      findGroup (kws.foldl (fun g k0 => addKey g k0 l) g) k =
        if k ∈ kws then some ((findGroup g k).getD [] ++ [l]) else findGroup g k := by
  intro kws
  induction kws with
  | nil => intro _ g; simp
  | cons k0 kws ih =>
    intro hnd g
    rcases List.nodup_cons.mp hnd with ⟨hk0, hnd1⟩
    simp only [List.foldl_cons]
    rw [ih hnd1 (addKey g k0 l)]
    by_cases hk : k = k0
    · subst hk
      rw [if_neg hk0, findGroup_addKey_self, if_pos (by simp)]
    · have hne : (k0 == k) = false := by
        simp [beq_eq_false_iff_ne]
        exact fun hc => hk hc.symm
      rw [findGroup_addKey_other g k k0 l hne]
      by_cases hmem : k ∈ kws
      · rw [if_pos hmem, if_pos (by simp [hmem])]
      · rw [if_neg hmem, if_neg (by simp [hmem, hk])]

/-- Combination of an existing bucket with the learnings a document block
adds to it. -/
def extGroup (o : Option (List Learning)) (new : List Learning) :
    Option (List Learning) :=
  if new.isEmpty then o else some (o.getD [] ++ new)

theorem findGroup_foldl_addLearning (k : String) :
    ∀ (ls : List Learning) (g : List (String × List Learning)),
      findGroup (ls.foldl addLearning g) k =
        extGroup (findGroup g k) (ls.filter (kwB k)) := by
  intro ls
  induction ls with
  | nil => intro g; simp [extGroup]
  | cons l ls ih =>
    intro g
    simp only [List.foldl_cons]
    rw [ih (addLearning g l), addLearning,
      findGroup_foldl_addKey l k (extractKeywords l.content)
        (nodup_extractKeywords l.content) g]
    by_cases hkw : kwB k l = true
    · have hmem : k ∈ extractKeywords l.content := by
        simpa [kwB] using hkw
      rw [if_pos hmem, List.filter_cons, if_pos hkw]
      unfold extGroup
      by_cases hfe : (ls.filter (kwB k)).isEmpty = true
      · have hnil : ls.filter (kwB k) = [] := by simpa [List.isEmpty_iff] using hfe
        simp [hnil]
      · simp only [hfe, Bool.false_eq_true, ite_false, List.isEmpty_cons]
        cases findGroup g k <;> simp
    · have hmem : k ∉ extractKeywords l.content := by
        simpa [kwB] using hkw
      rw [if_neg hmem, List.filter_cons, if_neg (by simpa using hkw)]

/-- The grouped map's bucket for keyword `k` is exactly the sublist of
learnings containing `k` (absent when no learning contains it). -/
theorem findGroup_groupByKeywords (ls : List Learning) (k : String) :
    findGroup (groupByKeywords ls) k =
      if (ls.filter (kwB k)).isEmpty then none else some (ls.filter (kwB k)) := by
  rw [groupByKeywords, findGroup_foldl_addLearning]
  by_cases hfe : (ls.filter (kwB k)).isEmpty = true
  · simp [extGroup, hfe, findGroup]
  · simp [extGroup, hfe, findGroup]

theorem mem_of_findGroup (k : String) (its : List Learning) :
    ∀ g : List (String × List Learning),
      findGroup g k = some its → (k, its) ∈ g := by
  intro g
  induction g with
  | nil => intro h; simp [findGroup] at h
  | cons e es ih =>
    intro h
    by_cases he : (e.1 == k) = true
    · simp only [findGroup] at h
      rw [if_pos he] at h
      have h1 : e.1 = k := by simpa using he
      have h2 : e.2 = its := by simpa using h
      have he2 : e = (k, its) := by rw [← h1, ← h2]
      rw [← he2]
      exact List.mem_cons_self e es
    · simp only [findGroup] at h
      rw [if_neg he] at h
      exact List.mem_cons_of_mem e (ih h)

theorem dedupByPath_length (items : List Learning) :
    (dedupByPath items).length = (dedupFirst (items.map (·.path))).length := by
  rw [dedupByPath]
  apply filterMap_length_of_isSome
  intro p hp
  have hp1 : p ∈ items.map (·.path) := (mem_dedupFirst _ p).mp hp
  rcases List.mem_map.mp hp1 with ⟨l, hl, rfl⟩
  have hfind : items.find? (fun x => x.path == l.path) ≠ none := by
    intro hn
    have := List.find?_eq_none.mp hn l hl
    simp at this
  exact Option.isSome_iff_ne_none.mpr hfind

theorem dedupByPath_length_le (items : List Learning) :
    (dedupByPath items).length ≤ items.length := by
  rw [dedupByPath_length]
  calc (dedupFirst (items.map (·.path))).length
      ≤ (items.map (·.path)).length := dedupFirst_length_le _
    _ = items.length := List.length_map _ _

/-- Claim C3: the Pattern Grouper retains a keyword if and only if the
number of distinct documents (distinct by path identity) containing it is
at least 3; a retained keyword's group reaches the synthesis output, and a
keyword below the threshold yields no group at all. -/
theorem c3_keyword_threshold (ls : List Learning) (k : String) :
    3 ≤ distinctDocCount ls k ↔
      ∃ items p, findGroup (groupByKeywords ls) k = some items ∧
        retainGroup (k, items) = some p ∧ p ∈ identifyPatterns ls := by
  constructor
  · intro h3
    have hne : ls.filter (kwB k) ≠ [] := by
      intro hnil
      rw [distinctDocCount, hnil] at h3
      simp [dedupFirst, dedupFirstAux] at h3
    have hfg : findGroup (groupByKeywords ls) k = some (ls.filter (kwB k)) := by
      rw [findGroup_groupByKeywords, if_neg (by simpa [List.isEmpty_iff] using hne)]
    have hdd : 3 ≤ (dedupByPath (ls.filter (kwB k))).length := by
      rw [dedupByPath_length]
      exact h3
    have hlen : 3 ≤ (ls.filter (kwB k)).length :=
      le_trans hdd (dedupByPath_length_le _)
    have hret : retainGroup (k, ls.filter (kwB k)) =
        some { theme := stripHash k
               occurrences := (dedupByPath (ls.filter (kwB k))).length
               learnings := dedupByPath (ls.filter (kwB k))
               insight := generateInsight k (dedupByPath (ls.filter (kwB k))) } := by
      simp only [retainGroup]
      rw [if_pos hlen, if_pos hdd]
    refine ⟨ls.filter (kwB k), _, hfg, hret, ?_⟩
    rw [identifyPatterns, mem_insSort]
    exact List.mem_filterMap.mpr
      ⟨(k, ls.filter (kwB k)), mem_of_findGroup k _ _ hfg, hret⟩
  · rintro ⟨items, p, hfg, hret, -⟩
    rw [findGroup_groupByKeywords] at hfg
    by_cases hfe : (ls.filter (kwB k)).isEmpty = true
    · rw [if_pos hfe] at hfg
      exact absurd hfg (by simp)
    · rw [if_neg hfe] at hfg
      have hitems : items = ls.filter (kwB k) := (Option.some.inj hfg).symm
      rw [hitems] at hret
      simp only [retainGroup] at hret
      by_cases h1 : 3 ≤ (ls.filter (kwB k)).length
      · rw [if_pos h1] at hret
        by_cases h2 : 3 ≤ (dedupByPath (ls.filter (kwB k))).length
        · rw [distinctDocCount, ← dedupByPath_length]
          exact h2
        · rw [if_neg h2] at hret
          exact absurd hret (by simp)
      · rw [if_neg h1] at hret
        exact absurd hret (by simp)

/-! ## Index store query ordering (C6) -/

theorem listLexLt_asymm :
    ∀ as bs : List Char, listLexLt as bs = true → listLexLt bs as = false := by
  intro as
  induction as with
  | nil =>
    intro bs h
    cases bs with
    | nil => simp [listLexLt] at h
    | cons b bs => simp [listLexLt]
  | cons a as ih =>
    intro bs h
    cases bs with
    | nil => simp [listLexLt] at h
    | cons b bs =>
      simp only [listLexLt, Bool.or_eq_true, Bool.and_eq_true, beq_iff_eq,
        decide_eq_true_eq] at h
      simp only [listLexLt, Bool.or_eq_false_iff, Bool.and_eq_false_iff,
        decide_eq_false_iff_not, beq_eq_false_iff_ne, ne_eq]
      rcases h with h | ⟨hab, htail⟩
      · constructor
        · omega
        · left
          omega
      · constructor
        · omega
        · by_cases hba : b.toNat = a.toNat
          · right
            exact ih bs htail
          · left
            exact hba

theorem listLexLt_neg_trans :
    ∀ as bs cs : List Char,
      listLexLt as bs = false → listLexLt bs cs = false → listLexLt as cs = false := by
  intro as
  induction as with
  | nil =>
    intro bs cs h1 h2
    cases bs with
    | nil =>
      cases cs with
      | nil => rfl
      | cons c cs => simp [listLexLt] at h2
    | cons b bs => simp [listLexLt] at h1
  | cons a as ih =>
    intro bs cs h1 h2
    cases bs with
    | nil =>
      cases cs with
      | nil => simp [listLexLt]
      | cons c cs => simp [listLexLt] at h2
    | cons b bs =>
      cases cs with
      | nil => simp [listLexLt]
      | cons c cs =>
        simp only [listLexLt, Bool.or_eq_false_iff, Bool.and_eq_false_iff,
          decide_eq_false_iff_not, beq_eq_false_iff_ne, ne_eq] at h1 h2 ⊢
        rcases h1 with ⟨hab, h1tail⟩
        rcases h2 with ⟨hbc, h2tail⟩
        constructor
        · omega
        · by_cases hac : a.toNat = c.toNat
          · right
            have hab2 : a.toNat = b.toNat := by omega
            have hbc2 : b.toNat = c.toNat := by omega
            rcases h1tail with h1tail | h1tail
            · omega
            · rcases h2tail with h2tail | h2tail
              · omega
              · exact ih bs cs h1tail h2tail
          · left
            exact hac

theorem strLt_asymm (a b : String) : strLt a b = true → strLt b a = false :=
  listLexLt_asymm a.data b.data

theorem strLt_neg_trans (a b c : String) :
    strLt a b = false → strLt b c = false → strLt a c = false :=
  listLexLt_neg_trans a.data b.data c.data

/-- `memBefore` unfolded to arithmetic form. -/
theorem memBefore_true_iff (a b : ScoredRow) :
    memBefore a b = true ↔
      (a.rank < b.rank ∨ (a.rank = b.rank ∧
        (b.row.mem.importance < a.row.mem.importance ∨
          (a.row.mem.importance = b.row.mem.importance ∧
            strLt b.row.mem.timestamp a.row.mem.timestamp = true)))) := by
  unfold memBefore
  simp [Bool.or_eq_true, Bool.and_eq_true, decide_eq_true_eq, beq_iff_eq]

theorem memBefore_asymm (a b : ScoredRow) :
    memBefore a b = true → memBefore b a = false := by
  intro h
  rw [memBefore_true_iff] at h
  cases hba : memBefore b a with
  | false => rfl
  | true =>
    rw [memBefore_true_iff] at hba
    rcases h with h | ⟨hr, h⟩ <;> rcases hba with hba | ⟨hr2, hba⟩
    · omega
    · omega
    · omega
    · rcases h with h | ⟨hi, h⟩ <;> rcases hba with hba | ⟨hi2, hba⟩
      · omega
      · omega
      · omega
      · rw [strLt_asymm _ _ h] at hba
        exact Bool.false_ne_true hba |>.elim

/-- The complement of `memBefore` (the ORDER BY's non-strict "at or after"
relation) is transitive. -/
theorem memBefore_neg_trans (a b c : ScoredRow) :
    memBefore b a = false → memBefore c b = false → memBefore c a = false := by
  intro h1 h2
  unfold memBefore at h1 h2 ⊢
  simp only [Bool.or_eq_false_iff, Bool.and_eq_false_iff, decide_eq_false_iff_not,
    beq_eq_false_iff_ne, ne_eq] at h1 h2 ⊢
  obtain ⟨h1r, h1rest⟩ := h1
  obtain ⟨h2r, h2rest⟩ := h2
  refine ⟨by omega, ?_⟩
  by_cases hac : c.rank = a.rank
  · right
    have hab : b.rank = a.rank := by omega
    have hcb : c.rank = b.rank := by omega
    rcases h1rest with h1rest | h1rest
    · omega
    · rcases h2rest with h2rest | h2rest
      · omega
      · obtain ⟨h1i, h1inner⟩ := h1rest
        obtain ⟨h2i, h2inner⟩ := h2rest
        refine ⟨by omega, ?_⟩
        by_cases hic : c.row.mem.importance = a.row.mem.importance
        · right
          have hib : b.row.mem.importance = a.row.mem.importance := by omega
          have hicb : c.row.mem.importance = b.row.mem.importance := by omega
          rcases h1inner with h1inner | h1inner
          · omega
          · rcases h2inner with h2inner | h2inner
            · omega
            · exact strLt_neg_trans _ _ _ h1inner h2inner
        · left
          exact hic
  · left
    exact hac

theorem memBefore_cotrans (a b c : ScoredRow) :
    memBefore c a = true → memBefore c b = true ∨ memBefore b a = true := by
  intro h
  by_cases h1 : memBefore c b = true
  · exact Or.inl h1
  · cases hba : memBefore b a with
    | true => exact Or.inr rfl
    | false =>
      have h1f : memBefore c b = false := Bool.eq_false_iff.mpr h1
      have := memBefore_neg_trans a b c hba h1f
      rw [h] at this
      exact absurd this (by simp)

def c6base : Memory :=
  { id := "m1", timestamp := "2026-02-02 00:00:00", type := "learning",
    topic := "alpha", content := "term alpha", rating := none, tags := "",
    file_path := "p1", importance := 3, stability := 3 }

/-- A match with importance 3 and the later timestamp. -/
def c6rowA : ScoredRow :=
  { row := { mem := c6base, created_at := "" }, rank := -2 }

/-- A match with equal rank, importance 5 and the earlier timestamp. -/
def c6mem2 : Memory :=
  { id := "m2", timestamp := "2026-01-01 00:00:00", type := "learning",
    topic := "alpha", content := "term alpha", rating := none, tags := "",
    file_path := "p1", importance := 5, stability := 3 }

def c6rowB : ScoredRow :=
  { row := { mem := c6mem2, created_at := "" }, rank := -2 }

/-- Claim C6: for every query result set and limit, `searchMemories`
returns at most `limit` records ordered by the engine's rank, ties broken
by importance descending then timestamp descending (each adjacent pair is
in order: the later one never strictly precedes the earlier one under the
ORDER BY relation); in particular, with equal ranks the importance-5
record is returned before the importance-3 record even though the latter
has the later timestamp. -/
theorem c6_search_order :
    (∀ (rows : List ScoredRow) (limit : Nat),
      (searchMemories rows limit).length ≤ limit ∧
        (searchMemories rows limit).Pairwise (fun a b => memBefore b a = false)) ∧
      searchMemories [c6rowA, c6rowB] 20 = [c6rowB, c6rowA] := by
  constructor
  · intro rows limit
    constructor
    · rw [searchMemories]
      exact List.length_take_le limit (insSort memBefore rows)
    · exact List.Pairwise.sublist (List.take_sublist _ _)
        (pairwise_insSort memBefore memBefore_asymm memBefore_cotrans rows)
  · decide

end PaiMemory
